import Mathlib

/-!
Verification of the mpd client core of the sonicast repository.

The definitions below are shallow embeddings of the Rust source under
`src/mpd/protocol.rs`, `src/mpd/mod.rs`, `src/mpd/types.rs` and
`src/player/commands.rs`.  Strings manipulated by the wire reader and
writer are modelled as lists of characters; byte streams are lists of
characters; fallible Rust functions returning `Result` are modelled with
`Except` or `Option`.
-/

namespace Sonicast

/-! ## Frame reader primitives (src/mpd/protocol.rs) -/

/-- Whitespace test used to model Rust `str::trim_end` / `str::trim_start`
on the ASCII whitespace characters that can occur in protocol lines. -/
def isWs (c : Char) : Bool :=
  c == ' ' || c == '\t' || c == '\n' || c == '\r'

/-- Model of `str::trim_end` on a list of characters. -/
def trimEnd (l : List Char) : List Char :=
  (l.reverse.dropWhile isWs).reverse

/-- Model of `str::trim_start` on a list of characters. -/
def trimStart (l : List Char) : List Char :=
  l.dropWhile isWs

/-- Model of `BufReader::read_line`: consume characters up to and including
the first newline (or to end of stream), returning the line read (newline
included, as Rust `read_line` keeps it) and the remaining stream. -/
def readLine : List Char → List Char × List Char
  | [] => ([], [])
  | c :: rest =>
    if c = '\n' then ([c], rest)
    else
      let (l, r) := readLine rest
      (c :: l, r)

/-- Embeds the helper `fn prefixed` of src/mpd/protocol.rs: if `s` starts
with `p`, return the remainder of `s` after that leading run. -/
def prefixed : List Char → List Char → Option (List Char)
  | [], s => some s
  | _ :: _, [] => none
  | p :: ps, c :: cs => if c = p then prefixed ps cs else none

/-- Model of Rust `str::split_once(":")` generalised to a separator
character: split at the first occurrence, returning the text before it and
the remainder after it. -/
def splitOnce (sep : Char) : List Char → Option (List Char × List Char)
  | [] => none
  | c :: rest =>
    if c = sep then some ([], rest)
    else (splitOnce sep rest).map (fun pr => (c :: pr.1, pr.2))

/-- Numeric value of a decimal digit character. -/
def digitVal (c : Char) : Nat := c.toNat - 48

/-- Model of Rust `str::parse::<usize>()`: an optional leading plus sign
followed by a nonempty run of decimal digits. -/
def parseUsize (l : List Char) : Option Nat :=
  let digits := match l with
    | '+' :: rest => rest
    | _ => l
  if digits = [] then none
  else if digits.all Char.isDigit then
    some (digits.foldl (fun acc c => acc * 10 + digitVal c) 0)
  else none

/-- Embeds `MpdReader::read_binary` of src/mpd/protocol.rs.  The Rust
source allocates the payload buffer with `Vec::with_capacity(len)`, which
produces a vector of length zero, so the following `read_exact(&mut bin)`
call reads zero bytes; the function then reads a single byte and requires
it to be a newline.  The `len` argument is therefore parsed but otherwise
unused, exactly as in the compiled source. -/
def read_binary (len : Nat) (s : List Char) :
    Except String (List Char × List Char) :=
  let _ := len
  match s with
  | [] => Except.error ("reading binary trailing newline")
  | c :: rest =>
    if c = '\n' then Except.ok ([], rest)
    else Except.error ("binary data did not end with trailing newline")

/-- Embeds the struct `OkResponse` of src/mpd/protocol.rs: the ordered
attribute pairs of a frame plus an optional binary payload. -/
structure OkResponse where
  attributes : List (List Char × List Char)
  binary : Option (List Char)
deriving DecidableEq, Repr

/-- Embeds the struct `ErrorResponse` of src/mpd/protocol.rs. -/
structure ErrorResponse where
  line : List Char
deriving DecidableEq, Repr

/-- Embeds `type Response = Result<OkResponse, ErrorResponse>`. -/
inductive Response where
  | ok (r : OkResponse)
  | err (e : ErrorResponse)
deriving DecidableEq, Repr

/-- Embeds the loop of `MpdReader::read_response` of src/mpd/protocol.rs.
Each iteration reads one line; an empty read is a connection-eof protocol
error; the line is right-trimmed; a literal `OK` completes an Ok frame;
an `ACK `-prefixed line completes an Error frame carrying the remainder;
a `binary: `-prefixed line parses the declared length and reads the binary
segment via `read_binary`; otherwise a line containing a colon attaches
the pair (text before the first colon, remainder with leading whitespace
stripped by `trim_start`) to the attribute store, and any other line is a
fatal protocol error.  The Rust loop runs unboundedly; it is embedded with
a fuel parameter, one unit per iteration. -/
def read_response (fuel : Nat) (attrs : List (List Char × List Char))
    (binary : Option (List Char)) (s : List Char) :
    Except String (Response × List Char) :=
  match fuel with
  | 0 => Except.error ("fuel exhausted")
  | fuel + 1 =>
    let (buff, rest) := readLine s
    if buff = [] then Except.error ("connection eof")
    else
      let line := trimEnd buff
      if line = ("OK").toList then
        Except.ok (Response.ok ⟨attrs, binary⟩, rest)
      else
        match prefixed ("ACK ").toList line with
        | some msg => Except.ok (Response.err ⟨msg⟩, rest)
        | none =>
          match prefixed ("binary: ").toList line with
          | some lenStr =>
            match parseUsize lenStr with
            | none => Except.error ("parsing length of binary data")
            | some len =>
              match read_binary len rest with
              | Except.error e => Except.error e
              | Except.ok (bin, rest2) => read_response fuel attrs (some bin) rest2
          | none =>
            match splitOnce ':' line with
            | some (k, v) => read_response fuel (attrs ++ [(k, trimStart v)]) binary rest
            | none => Except.error ("unrecognised response line from mpd")

/-! ## Frame writer (src/mpd/protocol.rs, `MpdWriter::send_command`) -/

/-- Characters appended for one argument character by the escaping loop of
`MpdWriter::send_command`: a quote or backslash is preceded by a
backslash, any other character is emitted as itself.  (The newline case,
which aborts encoding, is handled in `escapeArg`.) -/
def escTok (c : Char) : List Char :=
  if c = '"' ∨ c = '\\' then ['\\', c] else [c]

/-- Embeds the per-argument escaping loop of `MpdWriter::send_command`:
quote and backslash are backslash-escaped, a newline aborts with an
encoding error (modelled as `none`), all other characters pass through. -/
def escapeArg : List Char → Option (List Char)
  | [] => some []
  | c :: rest =>
    if c = '"' ∨ c = '\\' then (escapeArg rest).map (fun t => '\\' :: c :: t)
    else if c = '\n' then none
    else (escapeArg rest).map (fun t => c :: t)

/-- One encoded argument as appended by `send_command`: a space, an
opening quote, the escaped characters, and a closing quote. -/
def quoteArg (a : List Char) : Option (List Char) :=
  (escapeArg a).map (fun e => ' ' :: '"' :: (e ++ ['"']))

/-- Concatenation of the encoded arguments of a command line. -/
def encodeArgs : List (List Char) → Option (List Char)
  | [] => some []
  | a :: as =>
    match quoteArg a, encodeArgs as with
    | some qa, some rest => some (qa ++ rest)
    | _, _ => none

/-- The explicit shape of one encoded argument on the wire: a space, an
opening quote, the argument with every quote and backslash preceded by a
backslash, and a closing quote. -/
def quotedShape (a : List Char) : List Char :=
  ' ' :: '"' :: (a.flatMap escTok ++ ['"'])

/-- Embeds `MpdWriter::send_command` of src/mpd/protocol.rs: build the
whole line (command name, encoded arguments, terminating newline) in
memory, then perform the single write.  Because the Rust function only
calls `write_all` after the loop completes, an encoding failure (newline
in an argument) returns an error with no bytes written, which the
`Except.error` case models. -/
def send_command (cmd : String) (args : List (List Char)) :
    Except String (List Char) :=
  match encodeArgs args with
  | none => Except.error ("newline in command argument")
  | some tail => Except.ok (cmd.toList ++ tail ++ ['\n'])

/-- Modelled from the spec: the wire quoting rules used to decode a quoted
argument (section 6 of the spec: quote and backslash inside an argument
are escaped with a preceding backslash; an unescaped quote terminates the
argument).  Returns the decoded argument and the remaining characters
after the closing quote. -/
def unescapeGo (esc : Bool) : List Char → Option (List Char × List Char)
  | [] => none
  | c :: rest =>
    if esc then (unescapeGo false rest).map (fun pr => (c :: pr.1, pr.2))
    else if c = '\\' then unescapeGo true rest
    else if c = '"' then some ([], rest)
    else (unescapeGo false rest).map (fun pr => (c :: pr.1, pr.2))

/-- Decoding of one quoted argument through the wire quoting rules,
starting outside an escape sequence. -/
def unescape (l : List Char) : Option (List Char × List Char) :=
  unescapeGo false l

/-- Modelled from the spec: decoding of the argument section of a request
line through the wire quoting rules — each argument is introduced by a
space and an opening quote and decoded by `unescape` up to its closing
quote. -/
inductive WireArgs : List Char → List (List Char) → Prop where
  | nil : WireArgs [] []
  | cons (a : List Char) (l rest : List Char) (as : List (List Char)) :
      unescape l = some (a, rest) → WireArgs rest as →
      WireArgs (' ' :: '"' :: l) (a :: as)

/-! ## Attribute store (src/mpd/protocol.rs, `struct Attributes`) -/

/-- One key-value pair of the attribute store (`Vec<(String, String)>`). -/
abbrev Attr := String × String

namespace Attributes

/-- Embeds `Attributes::get_one`: the value of the first pair whose key
equals `name`, if any. -/
def get_one (attrs : List Attr) (name : String) : Option String :=
  (attrs.find? (fun kv => kv.1 == name)).map (fun kv => kv.2)

/-- Errors produced by typed attribute lookup, mirroring the `anyhow!`
messages of `Attributes::get` / `get_opt`: a missing attribute and a
malformed attribute, each naming the offending key. -/
inductive AttrError where
  | missing (name : String)
  | malformed (name : String)
deriving DecidableEq, Repr

/-- Embeds `Attributes::get`: parse the first value stored under `name`
with the `FromStr` instance of the target type (modelled by the `parse`
function), failing with a missing-attribute error when no pair with that
key exists and a malformed-attribute error when the parse fails. -/
def get {α : Type} (parse : String → Option α) (attrs : List Attr)
    (name : String) : Except AttrError α :=
  match get_one attrs name with
  | none => Except.error (AttrError.missing name)
  | some v =>
    match parse v with
    | none => Except.error (AttrError.malformed name)
    | some t => Except.ok t

/-- Embeds `Attributes::get_opt`: none when the key is absent, a
malformed-attribute error when the first value fails to parse, and the
parsed value otherwise. -/
def get_opt {α : Type} (parse : String → Option α) (attrs : List Attr)
    (name : String) : Except AttrError (Option α) :=
  match get_one attrs name with
  | none => Except.ok none
  | some v =>
    match parse v with
    | none => Except.error (AttrError.malformed name)
    | some t => Except.ok (some t)

/-- Appending a pair to the last group of a list of groups, modelling the
`if let Some(split) = splits.last_mut() { split.attrs.push((k, v)) }` step
of `Attributes::split_at`: when there is no group yet the pair is
dropped. -/
def pushLast (splits : List (List Attr)) (p : Attr) : List (List Attr) :=
  match splits.getLast? with
  | none => []
  | some g => splits.dropLast ++ [g ++ [p]]

/-- Embeds `Attributes::split_at` of src/mpd/protocol.rs: iterate over the
pairs in order; on each pair whose key equals `name`, open a new empty
group at the end; then append the pair to the last open group (dropping it
when no group is open yet). -/
def split_at (name : String) (attrs : List Attr) : List (List Attr) :=
  attrs.foldl
    (fun splits kv =>
      pushLast (if kv.1 = name then splits ++ [[]] else splits) kv)
    []

/-- Recursive characterisation of the group-building loop of `split_at`:
`cur` is the group currently open; a pair carrying the delimiter key
closes it and opens a fresh group, any other pair is appended to it. -/
def groupRec (name : String) (cur : List Attr) : List Attr → List (List Attr)
  | [] => [cur]
  | kv :: rest =>
    if kv.1 = name then cur :: groupRec name [kv] rest
    else groupRec name (cur ++ [kv]) rest

/-- Recursive characterisation of `split_at`: pairs before the first
occurrence of the delimiter key are dropped, and the first occurrence
opens the first group. -/
def splitRec (name : String) : List Attr → List (List Attr)
  | [] => []
  | kv :: rest =>
    if kv.1 = name then groupRec name [kv] rest else splitRec name rest

end Attributes

/-! ## Typed domain values (src/mpd/types.rs) -/

/-- Embeds `enum MpdEvent` of src/mpd/types.rs. -/
inductive MpdEvent where
  | playlist
  | player
  | options
  | mixer
deriving DecidableEq, Repr

/-- Embeds `impl FromStr for MpdEvent`: the four known subsystem names map
to their events, every other name fails. -/
def MpdEvent.from_str (s : String) : Option MpdEvent :=
  if s = "player" then some MpdEvent.player
  else if s = "playlist" then some MpdEvent.playlist
  else if s = "options" then some MpdEvent.options
  else if s = "mixer" then some MpdEvent.mixer
  else none

namespace Changed

/-- Embeds `Changed::events` of src/mpd/types.rs: parse each reported
subsystem name, keeping the successfully parsed events and dropping (with
a logged warning in the source) every name that fails to parse. -/
def events (subsystems : List String) : List MpdEvent :=
  subsystems.filterMap MpdEvent.from_str

end Changed

/-- Embeds `enum PlaybackState` of src/mpd/types.rs. -/
inductive PlaybackState where
  | stop
  | pause
  | play
deriving DecidableEq, Repr

/-! ## Domain client pieces (src/mpd/mod.rs, src/player/commands.rs) -/

/-- Decimal digit character for a value below ten. -/
def digitChar (n : Nat) : Char := Char.ofNat (48 + n)

/-- Decimal rendering of a natural number, most significant digit first;
the fuel argument bounds the recursion and is always sufficient when set
to the successor of the number. -/
def natDigitsAux : Nat → Nat → List Char
  | 0, _ => []
  | fuel + 1, n =>
    if n < 10 then [digitChar n]
    else natDigitsAux fuel (n / 10) ++ [digitChar (n % 10)]

/-- Decimal rendering of a natural number. -/
def natDigits (n : Nat) : List Char := natDigitsAux (n + 1) n

/-- Embeds `fn position` of src/mpd/mod.rs, which renders a signed offset
with Rust `format!` and the `{:+}` flag: an explicit sign character (plus
for zero and positive values, minus for negative values) followed by the
decimal digits of the absolute value. -/
def position (pos : Int) : List Char :=
  (if pos < 0 then '-' else '+') :: natDigits pos.natAbs

namespace Mpd

/-- Embeds `Mpd::delete` of src/mpd/mod.rs as the wire command it submits:
the command name is the literal `deleteid` and the single argument is the
sign-prefixed rendering of the offset. -/
def delete (pos : Int) : String × List (List Char) :=
  ("deleteid", [position pos])

end Mpd

/-- Embeds `enum Op` of src/player/commands.rs.  The seek position is an
`f64` in the source, rendered to its argument string with `format!`; the
embedding carries the rendered argument string directly, since no claim
depends on float formatting. -/
inductive Op where
  | next
  | previous
  | seek (pos : String)
deriving DecidableEq, Repr

/-- The wire command issued for one `Op` by `player_op`: `Op::Next` calls
`Mpd::next`, `Op::Previous` calls `Mpd::previous`, and `Op::Seek` calls
`Mpd::seekcur` with the rendered position. -/
def opCommand : Op → String × List String
  | Op.next => ("next", [])
  | Op.previous => ("previous", [])
  | Op.seek pos => ("seekcur", [pos])

/-- Embeds `player_op` of src/player/commands.rs as the sequence of
daemon commands it issues.  The function first queries `status` and
captures the reported playback state (the `state` argument models the
daemon's answer to that query), then issues `pause`, then the requested
operation, then `play` exactly when the captured state was playing. -/
def player_op (state : PlaybackState) (op : Op) :
    List (String × List String) :=
  [("status", []), ("pause", [])] ++ [opCommand op] ++
    (if state = PlaybackState.play then [("play", [])] else [])

/-! ## Connection multiplexer (src/mpd/mod.rs, `try_command` / `conn_reader`)

The multiplexer is concurrent code; it is embedded as a labelled
transition system over an abstract state.  Callers are identified by
natural numbers.  The state records who (if anyone) holds the writer
lock, the FIFO queue of pending waiters (each tagged with its caller),
the sequence of command lines written to the wire (tagged with the
submitting caller), the number of frames read so far, and the fulfilment
history as (caller, frame index) pairs in delivery order. -/

structure MuxState where
  writerHeldBy : Option Nat
  queue : List Nat
  wire : List Nat
  framesRead : Nat
  fulfilled : List (Nat × Nat)
deriving DecidableEq, Repr

/-- The state of a freshly opened connection: lock free, no waiters, no
commands written, no frames read. -/
def MuxState.init : MuxState :=
  { writerHeldBy := none, queue := [], wire := [], framesRead := 0, fulfilled := [] }

/-- One step of the multiplexer.  `acquire` and `release` model
`shared.writer.lock().await` and `drop(writer)` in `try_command`;
`pushWrite` models the critical section of `try_command` that, while
holding the writer lock, pushes one waiter onto the tail of the queue and
writes the one corresponding command line to the wire — a single atomic
step because no other submitter can run between the push and the write
while the lock is held; `readFrame` models one iteration of
`conn_reader`, which reads the next frame off the wire, pops the oldest
waiter (the queue being empty there is `unreachable!()` in the source),
and fulfils it with that frame. -/
inductive MuxStep : MuxState → MuxState → Prop where
  | acquire (s : MuxState) (c : Nat) :
      s.writerHeldBy = none →
      MuxStep s { s with writerHeldBy := some c }
  | pushWrite (s : MuxState) (c : Nat) :
      s.writerHeldBy = some c →
      MuxStep s { s with queue := s.queue ++ [c], wire := s.wire ++ [c] }
  | release (s : MuxState) (c : Nat) :
      s.writerHeldBy = some c →
      MuxStep s { s with writerHeldBy := none }
  | readFrame (s : MuxState) (c : Nat) (rest : List Nat) :
      s.queue = c :: rest →
      MuxStep s { s with queue := rest,
                         framesRead := s.framesRead + 1,
                         fulfilled := s.fulfilled ++ [(c, s.framesRead)] }

/-- States reachable from the initial connection state. -/
def Reachable (s : MuxState) : Prop :=
  Relation.ReflTransGen MuxStep MuxState.init s

/-! ## Lemmas about the frame writer -/

theorem escapeArg_eq_some {a : List Char} (h : '\n' ∉ a) :
    escapeArg a = some (a.flatMap escTok) := by
  induction a with
  | nil => simp [escapeArg]
  | cons c rest ih =>
    have hn : c ≠ '\n' := fun hc => h (hc ▸ List.mem_cons_self c rest)
    have hr : '\n' ∉ rest := fun hm => h (List.mem_cons_of_mem c hm)
    by_cases hc : c = '"' ∨ c = '\\'
    · simp [escapeArg, hc, ih hr, escTok]
    · simp [escapeArg, hc, hn, ih hr, escTok]

theorem escapeArg_eq_none {a : List Char} (h : '\n' ∈ a) : escapeArg a = none := by
  induction a with
  | nil => cases h
  | cons c rest ih =>
    by_cases hc : c = '"' ∨ c = '\\'
    · have hr : '\n' ∈ rest := by
        cases h with
        | head => cases hc with
          | inl h1 => cases h1
          | inr h1 => cases h1
        | tail _ h1 => exact h1
      simp [escapeArg, hc, ih hr]
    · by_cases hn : c = '\n'
      · simp [escapeArg, hc, hn]
      · have hr : '\n' ∈ rest := by
          cases h with
          | head => exact absurd rfl hn
          | tail _ h1 => exact h1
        simp [escapeArg, hc, hn, ih hr]

theorem encodeArgs_eq_some {args : List (List Char)}
    (h : ∀ a ∈ args, '\n' ∉ a) :
    encodeArgs args = some ((args.map quotedShape).flatten) := by
  induction args with
  | nil => simp [encodeArgs]
  | cons a as ih =>
    have ha : '\n' ∉ a := h a (List.mem_cons_self a as)
    have has : ∀ b ∈ as, '\n' ∉ b := fun b hb => h b (List.mem_cons_of_mem a hb)
    simp [encodeArgs, quoteArg, escapeArg_eq_some ha, ih has, quotedShape]

theorem encodeArgs_eq_none {args : List (List Char)} {a : List Char}
    (ha : a ∈ args) (hn : '\n' ∈ a) : encodeArgs args = none := by
  induction args with
  | nil => cases ha
  | cons b bs ih =>
    cases ha with
    | head => simp [encodeArgs, quoteArg, escapeArg_eq_none hn]
    | tail _ hm =>
      simp only [encodeArgs, ih hm]
      cases quoteArg b <;> rfl

theorem unescape_escape (a : List Char) (r : List Char) :
    unescape (a.flatMap escTok ++ '"' :: r) = some (a, r) := by
  unfold unescape
  induction a with
  | nil => simp [unescapeGo]
  | cons c rest ih =>
    by_cases hc : c = '"' ∨ c = '\\'
    · have hq : escTok c = ['\\', c] := by simp [escTok, hc]
      simp only [List.flatMap_cons, hq, List.cons_append, List.append_assoc]
      simp [unescapeGo, ih]
    · push_neg at hc
      have hq : escTok c = [c] := by simp [escTok, hc.1, hc.2]
      simp only [List.flatMap_cons, hq, List.cons_append, List.singleton_append]
      simp [unescapeGo, hc.1, hc.2, ih]

theorem wireArgs_encode (args : List (List Char)) :
    WireArgs ((args.map quotedShape).flatten) args := by
  induction args with
  | nil => exact WireArgs.nil
  | cons a as ih =>
    have h1 : unescape (a.flatMap escTok ++ ['"'] ++ (as.map quotedShape).flatten) =
        some (a, (as.map quotedShape).flatten) := by
      rw [List.append_assoc, List.singleton_append]
      exact unescape_escape a _
    simpa [quotedShape] using WireArgs.cons a _ _ as h1 ih

theorem wireArgs_det {l : List Char} {as : List (List Char)}
    (h1 : WireArgs l as) :
    ∀ {as2 : List (List Char)}, WireArgs l as2 → as = as2 := by
  induction h1 with
  | nil =>
    intro as2 h2
    cases h2 with
    | nil => rfl
  | cons a l0 rest as h hw ih =>
    intro as2 h2
    cases h2 with
    | cons a2 _ rest2 as3 h3 hw3 =>
      rw [h] at h3
      injection h3 with h4
      injection h4 with h5 h6
      subst h5
      subst h6
      rw [ih hw3]

/-- C3. Quoting round-trip: for every command name and list of arguments
none of which contains a newline, the frame writer emits exactly one line
made of the command name, then for each argument a space and the argument
double-quoted with embedded quotes and backslashes backslash-escaped,
terminated by a single newline; and decoding the argument section of that
line back through the wire quoting rules reproduces the original argument
list exactly (the decoding relation holds of it, and of it uniquely). -/
theorem claim_c3_roundtrip (cmd : String) (args : List (List Char))
    (h : ∀ a ∈ args, '\n' ∉ a) :
    send_command cmd args =
      Except.ok (cmd.toList ++ (args.map quotedShape).flatten ++ ['\n']) ∧
    WireArgs ((args.map quotedShape).flatten) args ∧
    ∀ as2, WireArgs ((args.map quotedShape).flatten) as2 → as2 = args := by
  refine ⟨?_, wireArgs_encode args, fun as2 h2 => (wireArgs_det (wireArgs_encode args) h2).symm⟩
  simp [send_command, encodeArgs_eq_some h]

theorem claim_c3_roundtrip_witness :
    send_command "find" [['a', '"', 'b', '\\', 'c']] =
      Except.ok (("find").toList ++ ([['a', '"', 'b', '\\', 'c']].map quotedShape).flatten ++ ['\n']) ∧
    WireArgs (([['a', '"', 'b', '\\', 'c']].map quotedShape).flatten) [['a', '"', 'b', '\\', 'c']] :=
  ⟨(claim_c3_roundtrip "find" [['a', '"', 'b', '\\', 'c']] (by decide)).1,
   (claim_c3_roundtrip "find" [['a', '"', 'b', '\\', 'c']] (by decide)).2.1⟩

/-- C4. Newline rejection: for every command name and argument list in
which some argument contains a newline character, `send_command` returns
the newline encoding error; because the Rust source performs its single
transport write only after the encoding loop has completed, this error
return writes no bytes to the transport. -/
theorem claim_c4_newline (cmd : String) (args : List (List Char))
    (a : List Char) (ha : a ∈ args) (hn : '\n' ∈ a) :
    send_command cmd args = Except.error ("newline in command argument") := by
  simp [send_command, encodeArgs_eq_none ha hn]

theorem claim_c4_newline_witness :
    ['x', '\n'] ∈ [['x', '\n']] ∧ '\n' ∈ ['x', '\n'] ∧
    send_command "play" [['x', '\n']] = Except.error ("newline in command argument") :=
  ⟨by decide, by decide,
   claim_c4_newline "play" [['x', '\n']] ['x', '\n'] (by decide) (by decide)⟩

/-! ## Lemmas about the frame reader -/

theorem readLine_append {l : List Char} (h : '\n' ∉ l) (rest : List Char) :
    readLine (l ++ '\n' :: rest) = (l ++ ['\n'], rest) := by
  induction l with
  | nil => simp [readLine]
  | cons c l0 ih =>
    have hn : c ≠ '\n' := fun hc => h (hc ▸ List.mem_cons_self c l0)
    have hr : '\n' ∉ l0 := fun hm => h (List.mem_cons_of_mem c hm)
    simp [readLine, hn, ih hr]

theorem trimEnd_append_newline (l : List Char) :
    trimEnd (l ++ ['\n']) = trimEnd l := by
  simp [trimEnd, List.dropWhile, isWs]

/-- C2. Binary segment decoding at the failing input `binary: 4` followed
by the four payload bytes `WXYZ` and a trailing newline, then the `OK`
terminator: the claim says this decodes to an Ok frame carrying the
four-byte payload, but the code's `read_binary` allocates its buffer with
`Vec::with_capacity(len)` (length zero), reads zero payload bytes, and
then requires the very next byte — the first payload byte `W` — to be a
newline, so the frame fails with the trailing-newline protocol error. -/
theorem claim_c2_binary_bug :
    read_response 8 [] none (("binary: 4\nWXYZ\nOK\n").toList) =
      Except.error ("binary data did not end with trailing newline") := rfl

/-- C5 counterexample: for the response line `key:  v` (two spaces after
the colon) followed by the `OK` terminator, the code attaches the value
`v` with both leading spaces stripped, whereas the claim — at most one
leading space stripped — requires the value ` v`. -/
theorem claim_c5_counterexample :
    read_response 4 [] none (("key:  v\nOK\n").toList) =
      Except.ok (Response.ok ⟨[(("key").toList, ("v").toList)], none⟩, []) ∧
    ("v").toList ≠ (" v").toList :=
  ⟨rfl, by decide⟩

/-- C5 amended: for every response line that contains a colon and is
neither the success sentinel `OK`, an `ACK `-tagged line, nor a
`binary: `-length line, one iteration of the frame-reader loop attaches
the pair (text before the first colon, remainder after the first colon
with all leading whitespace stripped — not merely at most one space) to
the current attribute store and continues with the rest of the stream. -/
theorem claim_c5_attrline (fuel : Nat) (attrs : List (List Char × List Char))
    (bin : Option (List Char)) (l rest : List Char) (k v : List Char)
    (hnl : '\n' ∉ l)
    (hok : trimEnd l ≠ ("OK").toList)
    (hack : prefixed (("ACK ").toList) (trimEnd l) = none)
    (hbin : prefixed (("binary: ").toList) (trimEnd l) = none)
    (hcolon : splitOnce ':' (trimEnd l) = some (k, v)) :
    read_response (fuel + 1) attrs bin (l ++ '\n' :: rest) =
      read_response fuel (attrs ++ [(k, trimStart v)]) bin rest := by
  have hne : l ++ ['\n'] ≠ [] := by simp
  simp only [read_response, readLine_append hnl, trimEnd_append_newline,
    hne, if_neg, hok, hack, hbin, hcolon]
  simp [hok]

theorem claim_c5_attrline_witness :
    '\n' ∉ ("key: val").toList ∧
    splitOnce ':' (trimEnd (("key: val").toList)) =
      some ((("key").toList), ((" val").toList)) ∧
    read_response 2 [] none (("key: val").toList ++ '\n' :: ("OK\n").toList) =
      read_response 1 ([] ++ [((("key").toList), trimStart ((" val").toList))]) none
        (("OK\n").toList) :=
  ⟨by decide, by decide,
   claim_c5_attrline 1 [] none (("key: val").toList) (("OK\n").toList)
     (("key").toList) ((" val").toList)
     (by decide) (by decide) (by decide) (by decide) (by decide)⟩


/-! ## Lemmas about the attribute store -/

namespace Attributes

theorem pushLast_concat (gs : List (List Attr)) (g : List Attr) (p : Attr) :
    pushLast (gs ++ [g]) p = gs ++ [g ++ [p]] := by
  simp [pushLast, List.getLast?_concat, List.dropLast_concat]

theorem foldl_split_concat (name : String) (l : List Attr) :
    ∀ (gs : List (List Attr)) (g : List Attr),
    List.foldl
      (fun splits kv => pushLast (if kv.1 = name then splits ++ [[]] else splits) kv)
      (gs ++ [g]) l = gs ++ groupRec name g l := by
  induction l with
  | nil => intro gs g; simp [groupRec]
  | cons kv rest ih =>
    intro gs g
    by_cases hk : kv.1 = name
    · have h1 : pushLast ((gs ++ [g]) ++ [[]]) kv = (gs ++ [g]) ++ [[kv]] := by
        simpa using pushLast_concat (gs ++ [g]) [] kv
      simp only [List.foldl_cons, hk, if_pos, h1]
      rw [ih (gs ++ [g]) [kv]]
      simp [groupRec, hk]
    · simp only [List.foldl_cons, hk, if_neg, if_false, pushLast_concat]
      rw [ih gs (g ++ [kv])]
      simp [groupRec, hk]

theorem split_at_eq_splitRec (name : String) (l : List Attr) :
    split_at name l = splitRec name l := by
  induction l with
  | nil => rfl
  | cons kv rest ih =>
    by_cases hk : kv.1 = name
    · simp only [split_at, List.foldl_cons]
      rw [if_pos hk]
      rw [show pushLast (([] : List (List Attr)) ++ [[]]) kv = [] ++ [[kv]] from rfl]
      rw [foldl_split_concat name rest [] [kv], List.nil_append]
      simp [splitRec, hk]
    · simp only [split_at, List.foldl_cons]
      rw [if_neg hk]
      rw [show pushLast ([] : List (List Attr)) kv = [] from rfl]
      rw [show splitRec name (kv :: rest) = splitRec name rest by simp [splitRec, hk]]
      exact ih

theorem groupRec_flatten (name : String) (l : List Attr) :
    ∀ cur, (groupRec name cur l).flatten = cur ++ l := by
  induction l with
  | nil => intro cur; simp [groupRec]
  | cons kv rest ih =>
    intro cur
    by_cases hk : kv.1 = name
    · simp [groupRec, hk, ih]
    · simp [groupRec, hk, ih]

theorem groupRec_length (name : String) (l : List Attr) :
    ∀ cur, (groupRec name cur l).length = 1 + l.countP (fun kv => kv.1 == name) := by
  induction l with
  | nil => intro cur; simp [groupRec]
  | cons kv rest ih =>
    intro cur
    by_cases hk : kv.1 = name
    · simp [groupRec, hk, ih, List.countP_cons]
      omega
    · simp [groupRec, hk, ih, List.countP_cons]

theorem groupRec_mem (name : String) (l : List Attr) :
    ∀ cur x, x ∈ groupRec name cur l →
    (∃ v t, cur = (name, v) :: t ∧ ∀ kv ∈ t, kv.1 ≠ name) →
    ∃ v t, x = (name, v) :: t ∧ ∀ kv ∈ t, kv.1 ≠ name := by
  induction l with
  | nil =>
    intro cur x hx hcur
    simp [groupRec] at hx
    exact hx ▸ hcur
  | cons kv rest ih =>
    intro cur x hx hcur
    by_cases hk : kv.1 = name
    · simp only [groupRec, hk, if_pos, List.mem_cons] at hx
      cases hx with
      | inl h => exact h ▸ hcur
      | inr h =>
        refine ih [kv] x h ⟨kv.2, [], ?_, by simp⟩
        rw [← hk]
    · simp only [groupRec, hk, if_neg, if_false] at hx
      obtain ⟨v, t, hcur1, hcur2⟩ := hcur
      refine ih (cur ++ [kv]) x hx ⟨v, t ++ [kv], ?_, ?_⟩
      · rw [hcur1]; rfl
      · intro kv2 hkv2
        rcases List.mem_append.mp hkv2 with h | h
        · exact hcur2 kv2 h
        · simp at h
          exact h ▸ hk

theorem splitRec_flatten (name : String) (l : List Attr) :
    (splitRec name l).flatten = l.dropWhile (fun kv => !(kv.1 == name)) := by
  induction l with
  | nil => rfl
  | cons kv rest ih =>
    by_cases hk : kv.1 = name
    · have hkb : (kv.1 == name) = true := by simpa using hk
      simp [splitRec, hk, groupRec_flatten, List.dropWhile_cons, hkb]
    · have hkb : (kv.1 == name) = false := by simpa using hk
      simp [splitRec, hk, ih, List.dropWhile_cons, hkb]

theorem splitRec_length (name : String) (l : List Attr) :
    (splitRec name l).length = l.countP (fun kv => kv.1 == name) := by
  induction l with
  | nil => rfl
  | cons kv rest ih =>
    by_cases hk : kv.1 = name
    · simp [splitRec, hk, groupRec_length, List.countP_cons]
      omega
    · simp [splitRec, hk, ih, List.countP_cons]

theorem splitRec_mem (name : String) (l : List Attr) :
    ∀ g ∈ splitRec name l, ∃ v t, g = (name, v) :: t ∧ ∀ kv ∈ t, kv.1 ≠ name := by
  induction l with
  | nil => intro g hg; cases hg
  | cons kv rest ih =>
    intro g hg
    by_cases hk : kv.1 = name
    · simp only [splitRec, hk, if_pos] at hg
      refine groupRec_mem name rest [kv] g hg ⟨kv.2, [], ?_, by simp⟩
      rw [← hk]
    · simp only [splitRec, hk, if_neg, if_false] at hg
      exact ih g hg

end Attributes

/-- C6 counterexample: with the attribute store `[(id,1),(file,a)]` and
delimiter key `file`, the pair `(id,1)` precedes the first occurrence of
the key and lands in no sub-store, so the sub-stores do not partition the
full ordered pair sequence as the claim states. -/
theorem claim_c6_counterexample :
    (Attributes.split_at "file" [("id","1"),("file","a")]).flatten ≠
      [("id","1"),("file","a")] ∧
    Attributes.split_at "file" [("id","1"),("file","a")] = [[("file","a")]] :=
  ⟨by decide, rfl⟩

/-- C6 amended: `split_at` drops every pair preceding the first occurrence
of the delimiter key and partitions the remainder of the ordered pair
sequence into one sub-store per occurrence of the key, each sub-store
beginning with that occurrence and containing all following pairs up to
but not including the next occurrence; in particular splitting
`[(file,a),(id,1),(file,b),(id,2)]` at key `file` yields exactly the two
groups `[(file,a),(id,1)]` and `[(file,b),(id,2)]`. -/
theorem claim_c6_split_at (name : String) (l : List Attr) :
    (Attributes.split_at name l).flatten =
      l.dropWhile (fun kv => !(kv.1 == name)) ∧
    (Attributes.split_at name l).length = l.countP (fun kv => kv.1 == name) ∧
    (∀ g ∈ Attributes.split_at name l,
      ∃ v t, g = (name, v) :: t ∧ ∀ kv ∈ t, kv.1 ≠ name) ∧
    Attributes.split_at "file" [("file","a"),("id","1"),("file","b"),("id","2")] =
      [[("file","a"),("id","1")],[("file","b"),("id","2")]] := by
  refine ⟨?_, ?_, ?_, rfl⟩
  · rw [Attributes.split_at_eq_splitRec]
    exact Attributes.splitRec_flatten name l
  · rw [Attributes.split_at_eq_splitRec]
    exact Attributes.splitRec_length name l
  · rw [Attributes.split_at_eq_splitRec]
    exact Attributes.splitRec_mem name l

theorem claim_c6_split_at_witness :
    (Attributes.split_at "file" [("file","a"),("id","1")]).flatten =
      [(("file" : String),("a" : String)),("id","1")].dropWhile
        (fun kv => !(kv.1 == "file")) :=
  (claim_c6_split_at "file" [("file","a"),("id","1")]).1

theorem get_one_eq_none {attrs : List Attr} {name : String}
    (h : ∀ kv ∈ attrs, kv.1 ≠ name) :
    Attributes.get_one attrs name = none := by
  have hf : List.find? (fun kv => kv.1 == name) attrs = none :=
    List.find?_eq_none.mpr (fun kv hkv => by simpa using h kv hkv)
  simp [Attributes.get_one, hf]

theorem get_one_first {name : String} (p q : List Attr) (v : String)
    (hp : ∀ kv ∈ p, kv.1 ≠ name) :
    Attributes.get_one (p ++ (name, v) :: q) name = some v := by
  induction p with
  | nil => simp [Attributes.get_one, List.find?]
  | cons kv p0 ih =>
    have hk : kv.1 ≠ name := hp kv (List.mem_cons_self kv p0)
    have hp0 : ∀ kv2 ∈ p0, kv2.1 ≠ name := fun kv2 h2 => hp kv2 (List.mem_cons_of_mem kv h2)
    have hkb : (kv.1 == name) = false := by simpa using hk
    simpa [Attributes.get_one, List.find?, hkb] using ih hp0

/-- C7. Typed attribute lookup: when no pair carries the key, `get` fails
with a missing-attribute error naming the key and `get_opt` returns none;
`get_one` returns the value of the first pair carrying the key; when that
first value fails to parse, both `get` and `get_opt` fail with a
malformed-attribute error naming the key; and when it parses, `get`
returns the parsed value and `get_opt` returns it wrapped in some. -/
theorem claim_c7_get {α : Type} (parse : String → Option α)
    (attrs : List Attr) (name : String) :
    ((∀ kv ∈ attrs, kv.1 ≠ name) →
      Attributes.get parse attrs name = Except.error (Attributes.AttrError.missing name) ∧
      Attributes.get_opt parse attrs name = Except.ok none) ∧
    (∀ p v q, attrs = p ++ (name, v) :: q → (∀ kv ∈ p, kv.1 ≠ name) →
      Attributes.get_one attrs name = some v) ∧
    (∀ v, Attributes.get_one attrs name = some v →
      (parse v = none →
        Attributes.get parse attrs name = Except.error (Attributes.AttrError.malformed name) ∧
        Attributes.get_opt parse attrs name = Except.error (Attributes.AttrError.malformed name)) ∧
      (∀ t, parse v = some t →
        Attributes.get parse attrs name = Except.ok t ∧
        Attributes.get_opt parse attrs name = Except.ok (some t))) := by
  refine ⟨fun h => ?_, fun p v q heq hp => heq ▸ get_one_first p q v hp,
    fun v hv => ⟨fun hp => ?_, fun t ht => ?_⟩⟩
  · simp [Attributes.get, Attributes.get_opt, get_one_eq_none h]
  · simp [Attributes.get, Attributes.get_opt, hv, hp]
  · simp [Attributes.get, Attributes.get_opt, hv, ht]

theorem claim_c7_get_witness :
    Attributes.get (fun s => if s = "7" then some 7 else none)
      [("x","1"),("playlist","7")] "playlist" = Except.ok 7 ∧
    Attributes.get_opt (fun s => if s = "7" then some 7 else none)
      [("x","1")] "playlist" = Except.ok none ∧
    Attributes.get (fun s => if s = "7" then some 7 else none)
      [("x","1")] "playlist" = Except.error (Attributes.AttrError.missing "playlist") ∧
    Attributes.get (fun s => if s = "7" then some 7 else none)
      [("playlist","abc")] "playlist" =
      Except.error (Attributes.AttrError.malformed "playlist") := by
  refine ⟨?_, ?_, ?_, ?_⟩
  · exact (((claim_c7_get (fun s => if s = "7" then some 7 else none)
      [("x","1"),("playlist","7")] "playlist").2.2 "7" (by decide)).2 7 (by decide)).1
  · exact ((claim_c7_get (fun s => if s = "7" then some 7 else none)
      [("x","1")] "playlist").1 (by decide)).2
  · exact ((claim_c7_get (fun s => if s = "7" then some 7 else none)
      [("x","1")] "playlist").1 (by decide)).1
  · exact (((claim_c7_get (fun s => if s = "7" then some 7 else none)
      [("playlist","abc")] "playlist").2.2 "abc" (by decide)).1 (by decide)).1

/-! ## Player-operation workaround, event mapping, delete-by-position -/

/-- C8. Play/pause workaround ordering: for every captured playback state
and every next/previous/seek operation, `player_op` issues exactly the
status query, then pause, then the requested operation, then play if and
only if the captured state was playing; when the captured state was not
playing, no play command appears anywhere in the issued sequence. -/
theorem claim_c8_player_op (state : PlaybackState) (op : Op) :
    player_op state op =
      [("status", []), ("pause", [])] ++ [opCommand op] ++
        (if state = PlaybackState.play then [("play", [])] else []) ∧
    (state ≠ PlaybackState.play → ("play", []) ∉ player_op state op) ∧
    (state = PlaybackState.play →
      player_op state op = [("status", []), ("pause", []), opCommand op, ("play", [])]) := by
  refine ⟨rfl, fun hs => ?_, fun hs => by simp [player_op, hs]⟩
  have hop : opCommand op ≠ ("play", []) := by
    cases op <;> simp [opCommand]
  simp [player_op, hs, hop]
  exact fun hcontra => hop hcontra.symm

theorem claim_c8_player_op_witness :
    PlaybackState.pause ≠ PlaybackState.play ∧
    ("play", ([] : List String)) ∉ player_op PlaybackState.pause Op.next :=
  ⟨by decide, (claim_c8_player_op PlaybackState.pause Op.next).2.1 (by decide)⟩

/-- C9. Closed event mapping: each of the subsystem names player,
playlist, options and mixer parses to the corresponding event of the
closed enumeration; every other name parses to none; during decoding a
name that parses to none is dropped without failing, and a name that
parses is kept — so the decoded event list contains only events of the
closed enumeration. -/
theorem claim_c9_events (s : String) (subs : List String) :
    (MpdEvent.from_str "player" = some MpdEvent.player ∧
     MpdEvent.from_str "playlist" = some MpdEvent.playlist ∧
     MpdEvent.from_str "options" = some MpdEvent.options ∧
     MpdEvent.from_str "mixer" = some MpdEvent.mixer) ∧
    (s ≠ "player" → s ≠ "playlist" → s ≠ "options" → s ≠ "mixer" →
      MpdEvent.from_str s = none) ∧
    (MpdEvent.from_str s = none → Changed.events (s :: subs) = Changed.events subs) ∧
    (∀ e, MpdEvent.from_str s = some e →
      Changed.events (s :: subs) = e :: Changed.events subs) := by
  refine ⟨⟨rfl, rfl, rfl, rfl⟩, fun h1 h2 h3 h4 => ?_, fun h => ?_, fun e h => ?_⟩
  · simp [MpdEvent.from_str, h1, h2, h3, h4]
  · simp [Changed.events, h]
  · simp [Changed.events, h]

theorem claim_c9_events_witness :
    MpdEvent.from_str "database" = none ∧
    Changed.events ["database", "player"] = Changed.events ["player"] ∧
    Changed.events ["player"] = MpdEvent.player :: Changed.events [] := by
  have h := claim_c9_events "database" ["player"]
  have h2 := claim_c9_events "player" []
  have hn : MpdEvent.from_str "database" = none :=
    h.2.1 (by decide) (by decide) (by decide) (by decide)
  exact ⟨hn, h.2.2.1 hn, h2.2.2.2 MpdEvent.player rfl⟩

theorem escapeArg_id {l : List Char}
    (h : ∀ c ∈ l, c ≠ '"' ∧ c ≠ '\\' ∧ c ≠ '\n') :
    escapeArg l = some l := by
  induction l with
  | nil => rfl
  | cons c rest ih =>
    obtain ⟨h1, h2, h3⟩ := h c (List.mem_cons_self c rest)
    have hr : ∀ c2 ∈ rest, c2 ≠ '"' ∧ c2 ≠ '\\' ∧ c2 ≠ '\n' :=
      fun c2 hc2 => h c2 (List.mem_cons_of_mem c hc2)
    have hc : ¬ (c = '"' ∨ c = '\\') := by simp [h1, h2]
    simp [escapeArg, hc, h3, ih hr]

theorem natDigitsAux_safe (fuel n : Nat) :
    ∀ c ∈ natDigitsAux fuel n, 48 ≤ c.toNat ∧ c.toNat ≤ 57 := by
  induction fuel generalizing n with
  | zero => intro c hc; cases hc
  | succ fuel ih =>
    intro c hc
    by_cases hn : n < 10
    · simp only [natDigitsAux, hn, if_pos, List.mem_singleton] at hc
      subst hc
      interval_cases n <;> simp [digitChar]
    · simp only [natDigitsAux, hn, if_neg, if_false, List.mem_append, List.mem_singleton] at hc
      cases hc with
      | inl h => exact ih (n / 10) c h
      | inr h =>
        subst h
        have : n % 10 < 10 := Nat.mod_lt n (by omega)
        interval_cases hm : (n % 10) <;> simp [digitChar]

theorem position_safe (p : Int) :
    ∀ c ∈ position p, c ≠ '"' ∧ c ≠ '\\' ∧ c ≠ '\n' := by
  intro c hc
  rcases List.mem_cons.mp hc with h | h
  · subst h
    by_cases hp : p < 0 <;> simp [hp]
  · obtain ⟨hlo, hhi⟩ := natDigitsAux_safe (p.natAbs + 1) p.natAbs c h
    refine ⟨?_, ?_, ?_⟩
    · intro hch; subst hch; exact absurd hlo (by decide)
    · intro hch; subst hch; exact absurd hhi (by decide)
    · intro hch; subst hch; exact absurd hlo (by decide)

/-- C10. Delete-by-position: for every signed offset, `Mpd::delete`
transmits the wire command named `deleteid` — never `delete` — with the
single argument rendered as the decimal digits of the offset's absolute
value behind an explicit sign prefix, so zero renders as `+0`, three as
`+3` and minus two as `-2`; the full wire line is the quoted form of that
one argument. -/
theorem claim_c10_delete (p : Int) :
    Mpd.delete p = ("deleteid", [position p]) ∧
    (Mpd.delete p).1 ≠ "delete" ∧
    position p = (if p < 0 then '-' else '+') :: natDigits p.natAbs ∧
    send_command (Mpd.delete p).1 (Mpd.delete p).2 =
      Except.ok (("deleteid").toList ++ (' ' :: '"' :: (position p ++ ['"'])) ++ ['\n']) ∧
    position 0 = ("+0").toList ∧
    position 3 = ("+3").toList ∧
    position (-2) = ("-2").toList := by
  refine ⟨rfl, by simp [Mpd.delete], rfl, ?_, rfl, rfl, rfl⟩
  simp [Mpd.delete, send_command, encodeArgs, quoteArg,
    escapeArg_id (position_safe p)]

theorem claim_c10_delete_witness :
    Mpd.delete 3 = ("deleteid", [position 3]) ∧ position 3 = ("+3").toList :=
  ⟨(claim_c10_delete 3).1, (claim_c10_delete 3).2.2.2.2.2.1⟩

/-! ## The multiplexer FIFO invariant -/

theorem mux_inv (s : MuxState) (hs : Reachable s) :
    s.wire = s.fulfilled.map Prod.fst ++ s.queue ∧
    s.fulfilled.map Prod.snd = List.range s.framesRead := by
  induction hs with
  | refl => exact ⟨rfl, rfl⟩
  | tail hab hbc ih =>
    obtain ⟨ih1, ih2⟩ := ih
    cases hbc with
    | acquire c h => exact ⟨ih1, ih2⟩
    | pushWrite c h =>
      refine ⟨?_, by simpa using ih2⟩
      rw [ih1, List.append_assoc]
    | release c h => exact ⟨ih1, ih2⟩
    | readFrame c rest h =>
      refine ⟨?_, ?_⟩
      · rw [ih1, h]
        simp
      · rw [List.map_append, ih2, List.range_succ]
        rfl

/-- C1. FIFO response matching: in every reachable multiplexer state, the
wire history equals the fulfilled callers followed by the still-queued
callers (so the Nth waiter pushed is the caller of the Nth command line
written — one waiter and one wire line being appended together in the
atomic locked step), the fulfilment history pairs waiters with frame
indices zero, one, two, … in order (so the Nth waiter is fulfilled by the
Nth frame read), at most as many frames have been read as commands
written, and therefore the caller of the Nth wire command is exactly the
one that receives frame N — each caller receives the response frame
produced for its own command. -/
theorem claim_c1_fifo (s : MuxState) (hs : Reachable s) :
    s.wire = s.fulfilled.map Prod.fst ++ s.queue ∧
    s.fulfilled.map Prod.snd = List.range s.framesRead ∧
    s.framesRead = s.fulfilled.length ∧
    s.framesRead ≤ s.wire.length ∧
    ∀ n c, n < s.framesRead → s.wire.get? n = some c →
      s.fulfilled.get? n = some (c, n) := by
  obtain ⟨h1, h2⟩ := mux_inv s hs
  have hlen : s.fulfilled.length = s.framesRead := by
    have h3 := congrArg List.length h2
    simpa using h3
  refine ⟨h1, h2, hlen.symm, ?_, ?_⟩
  · rw [h1]
    simp [hlen]
  · intro n c hn hw
    have hn2 : n < s.fulfilled.length := by omega
    cases hget : s.fulfilled.get? n with
    | none =>
      have := List.get?_eq_none.mp hget
      omega
    | some x =>
      obtain ⟨a, b⟩ := x
      have hw2 : (s.fulfilled.map Prod.fst).get? n = some c := by
        rw [h1] at hw
        rwa [List.get?_append (by simpa using hn2)] at hw
      have hfst : (s.fulfilled.map Prod.fst).get? n = some a := by
        rw [List.get?_map, hget]; rfl
      have hsnd : (s.fulfilled.map Prod.snd).get? n = some b := by
        rw [List.get?_map, hget]; rfl
      rw [h2] at hsnd
      rw [List.get?_range hn] at hsnd
      have hx1 : a = c := by
        rw [hfst] at hw2
        exact Option.some_inj.mp hw2
      have hx2 : b = n := (Option.some_inj.mp hsnd).symm
      rw [hx1, hx2]

theorem claim_c1_fifo_witness :
    Reachable { writerHeldBy := none, queue := [], wire := [1],
                framesRead := 1, fulfilled := [(1, 0)] } ∧
    (MuxState.fulfilled { writerHeldBy := none, queue := [], wire := [1],
                          framesRead := 1, fulfilled := [(1, 0)] }).get? 0 =
      some (1, 0) := by
  have r1 : Reachable { writerHeldBy := some 1, queue := [], wire := [],
                        framesRead := 0, fulfilled := [] } :=
    Relation.ReflTransGen.single (MuxStep.acquire MuxState.init 1 rfl)
  have r2 : Reachable { writerHeldBy := some 1, queue := [1], wire := [1],
                        framesRead := 0, fulfilled := [] } :=
    r1.tail (MuxStep.pushWrite _ 1 rfl)
  have r3 : Reachable { writerHeldBy := none, queue := [1], wire := [1],
                        framesRead := 0, fulfilled := [] } :=
    r2.tail (MuxStep.release _ 1 rfl)
  have r4 : Reachable { writerHeldBy := none, queue := [], wire := [1],
                        framesRead := 1, fulfilled := [(1, 0)] } :=
    r3.tail (MuxStep.readFrame _ 1 [] rfl)
  exact ⟨r4, (claim_c1_fifo _ r4).2.2.2.2 0 1 (by decide) (by decide)⟩

end Sonicast
